import Mathlib

/-!
Shallow embedding of `src/main.cpp`: a doubly linked list of machine ints
with `push_front`, `push_back`, `pop_front`, `pop_back`, `size`, `empty`
and bidirectional traversal.

Pointers are modelled as natural-number addresses into an explicit heap
`Nat → Option Node`; `none` is the null pointer / an unallocated address.
`new` allocates at a strictly increasing `fresh` address, `delete` erases
the address from the heap.  Dereferencing a null or unallocated address is
undefined behaviour in C++; in the popping operations it is modelled by the
explicit outcome `PopRes.ub`, and a link-write through a dead address
(which under the list invariant never happens) leaves the heap unchanged.
`int` data is modelled by `Int` (the program stores and returns values
unchanged, so no overflow arises), `std::size_t size_` by `Nat` (the count
never exceeds the number of allocations).
-/

/-- The C++ `struct Node`: an `int data` plus `prev` and `next` pointers
(`src/main.cpp` lines 25-31).  A freshly constructed node has both
pointers null. -/
structure Node where
  data : Int
  prev : Option Nat
  next : Option Nat
  deriving DecidableEq

/-- The memory: a map from addresses to allocated nodes. -/
abbrev Heap := Nat → Option Node

/-- Store `v` (a node, or `none` for deallocation) at address `a`. -/
def hupd (h : Heap) (a : Nat) (v : Option Node) : Heap :=
  fun b => if b = a then v else h b

/-- Assignment `x->prev = p`: overwrite the `prev` field of the node at `a`.
Writing through a dead pointer is C++ undefined behaviour; the model
leaves the heap unchanged in that case (the invariant rules it out). -/
def writePrev (h : Heap) (a : Nat) (p : Option Nat) : Heap :=
  match h a with
  | some n => hupd h a (some { n with prev := p })
  | none => h

/-- Assignment `x->next = q`: overwrite the `next` field of the node at `a`. -/
def writeNext (h : Heap) (a : Nat) (q : Option Nat) : Heap :=
  match h a with
  | some n => hupd h a (some { n with next := q })
  | none => h

/-- The C++ `class DoublyLinkedList` (`src/main.cpp` lines 44-69): `head` and
`tail` pointers and the element count `size_`, together with the heap the
nodes live in and the next fresh allocation address. -/
structure DLL where
  heap : Heap
  head : Option Nat
  tail : Option Nat
  size_ : Nat
  fresh : Nat

/-- The default constructor: `head(nullptr), tail(nullptr), size_(0)`,
with an empty heap. -/
def emptyDLL : DLL :=
  { heap := fun _ => none, head := none, tail := none, size_ := 0, fresh := 0 }

/-- Accessor `size()` (`src/main.cpp` line 56). -/
def DLL.size (l : DLL) : Nat := l.size_

/-- Accessor `empty()` (`src/main.cpp` line 57). -/
def DLL.empty (l : DLL) : Bool := l.size_ == 0

/-- Operation `push_front` (`src/main.cpp` lines 90-97):
allocate `n` with `n->next = head`; `if (head) head->prev = n`;
`head = n`; `if (!tail) tail = n`; `++size_`. -/
def push_front (l : DLL) (value : Int) : DLL :=
  let a := l.fresh
  let h1 : Heap := hupd l.heap a (some { data := value, prev := none, next := l.head })
  let h2 : Heap :=
    match l.head with
    | some b => writePrev h1 b (some a)
    | none => h1
  { heap := h2
    head := some a
    tail := match l.tail with | none => some a | some t => some t
    size_ := l.size_ + 1
    fresh := l.fresh + 1 }

/-- Operation `push_back` (`src/main.cpp` lines 102-109):
allocate `n` with `n->prev = tail`; `if (tail) tail->next = n`;
`tail = n`; `if (!head) head = n`; `++size_`. -/
def push_back (l : DLL) (value : Int) : DLL :=
  let a := l.fresh
  let h1 : Heap := hupd l.heap a (some { data := value, prev := l.tail, next := none })
  let h2 : Heap :=
    match l.tail with
    | some b => writeNext h1 b (some a)
    | none => h1
  { heap := h2
    head := match l.head with | none => some a | some hd => some hd
    tail := some a
    size_ := l.size_ + 1
    fresh := l.fresh + 1 }

/-- Outcome of a popping operation: the `std::underflow_error` throw, a
C++ undefined-behaviour dereference of a null or dead pointer (never
reached from a valid list), or the returned value with the updated list. -/
inductive PopRes where
  | underflow : PopRes
  | ub : PopRes
  | ok : Int → DLL → PopRes

/-- The value a successful pop returns. -/
def popVal : PopRes → Option Int
  | .ok v _ => some v
  | _ => none

/-- The list after a popping operation; when the operation throws, the
C++ object is left as it was. -/
def popState (l : DLL) : PopRes → DLL
  | .ok _ l2 => l2
  | _ => l

/-- Operation `pop_front` (`src/main.cpp` lines 115-125):
`if (empty()) throw`; `n = head`; `val = n->data`; `head = head->next`;
`if (head) head->prev = nullptr; else tail = nullptr`; `delete n`;
`--size_`; `return val`. -/
def pop_front (l : DLL) : PopRes :=
  if l.size_ = 0 then .underflow
  else
    match l.head with
    | none => .ub
    | some a =>
      match l.heap a with
      | none => .ub
      | some n =>
        let h2 : Heap :=
          match n.next with
          | some b => writePrev l.heap b none
          | none => l.heap
        .ok n.data
          { heap := hupd h2 a none
            head := n.next
            tail := match n.next with | some _ => l.tail | none => none
            size_ := l.size_ - 1
            fresh := l.fresh }

/-- Operation `pop_back` (`src/main.cpp` lines 127-137):
`if (empty()) throw`; `n = tail`; `val = n->data`; `tail = tail->prev`;
`if (tail) tail->next = nullptr; else head = nullptr`; `delete n`;
`--size_`; `return val`. -/
def pop_back (l : DLL) : PopRes :=
  if l.size_ = 0 then .underflow
  else
    match l.tail with
    | none => .ub
    | some a =>
      match l.heap a with
      | none => .ub
      | some n =>
        let h2 : Heap :=
          match n.prev with
          | some b => writeNext l.heap b none
          | none => l.heap
        .ok n.data
          { heap := hupd h2 a none
            head := match n.prev with | some _ => l.head | none => none
            tail := n.prev
            size_ := l.size_ - 1
            fresh := l.fresh }

/-- The value sequence produced by `print_forward`'s loop
`for (cur = head; cur; cur = cur->next)` (`src/main.cpp` lines 143-148).
The loop has no termination guarantee on an arbitrary heap, so it takes
fuel: `none` means the fuel ran out or a dead address was dereferenced
(the C++ loop would diverge or hit undefined behaviour). -/
def traverseFwd (h : Heap) : Nat → Option Nat → Option (List Int)
  | _, none => some []
  | 0, some _ => none
  | fuel + 1, some a =>
    match h a with
    | none => none
    | some n => (traverseFwd h fuel n.next).map (fun xs => n.data :: xs)

/-- The value sequence produced by `print_backward`'s loop
`for (cur = tail; cur; cur = cur->prev)` (`src/main.cpp` lines 150-155). -/
def traverseBwd (h : Heap) : Nat → Option Nat → Option (List Int)
  | _, none => some []
  | 0, some _ => none
  | fuel + 1, some a =>
    match h a with
    | none => none
    | some n => (traverseBwd h fuel n.prev).map (fun xs => n.data :: xs)

/-! ### The structural invariant

A valid list is described by the list `as` of its node addresses in head
to tail order: consecutive nodes are mutually linked, the head node's
`prev` and the tail node's `next` are null, `head`/`tail`/`size_` agree
with the address list, and every allocated address is below `fresh`. -/

/-- The head of an address list as a pointer, or `q` when it is empty. -/
def headOr (as : List Nat) (q : Option Nat) : Option Nat :=
  match as with
  | [] => q
  | b :: _ => some b

/-- The last element of an address list as a pointer, or `p` when it is
empty. -/
def lastOr : List Nat → Option Nat → Option Nat
  | [], p => p
  | b :: bs, _ => lastOr bs (some b)

/-- The node at `a` is allocated and has exactly the links `p` and `q`. -/
def nodeOK (h : Heap) (a : Nat) (p q : Option Nat) : Bool :=
  match h a with
  | none => false
  | some n => n.prev == p && n.next == q

/-- Predicate `chainSeg h p as q`: the addresses `as` form a doubly linked chain in
`h` whose first node's `prev` is `p` and whose last node's `next` is `q`;
adjacent nodes point at each other (mutual links). -/
def chainSeg (h : Heap) (p : Option Nat) : List Nat → Option Nat → Bool
  | [], _ => true
  | a :: rest, q => nodeOK h a p (headOr rest q) && chainSeg h (some a) rest q

/-- The invariant, relative to an explicit address chain `as`:
the chain is doubly linked with null `prev` at the head node and null
`next` at the tail node, `head` points at its first and `tail` at its
last element (both null when it is empty), `size_` is its length, the
addresses are distinct, and all of them are below the allocation
counter. -/
def DLL.InvWith (l : DLL) (as : List Nat) : Prop :=
  chainSeg l.heap none as none = true ∧
  l.head = as.head? ∧
  l.tail = as.getLast? ∧
  as.length = l.size_ ∧
  as.Nodup ∧
  ∀ a ∈ as, a < l.fresh

/-- The structural invariant of `DoublyLinkedList`
(`src/main.cpp` lines 36-42): some address chain realises the list. -/
def DLL.Inv (l : DLL) : Prop :=
  ∃ as : List Nat, l.InvWith as

/-- The states reachable from a newly constructed list by the four
public mutating operations. -/
inductive Reachable : DLL → Prop where
  | empty : Reachable emptyDLL
  | pushF (l : DLL) (v : Int) : Reachable l → Reachable (push_front l v)
  | pushB (l : DLL) (v : Int) : Reachable l → Reachable (push_back l v)
  | popF (l : DLL) (v : Int) (l2 : DLL) :
      Reachable l → pop_front l = .ok v l2 → Reachable l2
  | popB (l : DLL) (v : Int) (l2 : DLL) :
      Reachable l → pop_back l = .ok v l2 → Reachable l2

/-- The payload stored at address `a` (junk `0` when unallocated). -/
def dataAt (h : Heap) (a : Nat) : Int :=
  match h a with
  | some n => n.data
  | none => 0

/-- The payloads along an address chain. -/
def vals (h : Heap) (as : List Nat) : List Int := as.map (dataAt h)

/-! ### Heap lemmas -/

theorem hupd_same (h : Heap) (a : Nat) (v : Option Node) : hupd h a v a = v := by
  simp [hupd]

theorem hupd_other (h : Heap) (a b : Nat) (v : Option Node) (hb : b ≠ a) :
    hupd h a v b = h b := by
  simp [hupd, hb]

theorem writePrev_other (h : Heap) (a b : Nat) (p : Option Nat) (hb : b ≠ a) :
    writePrev h a p b = h b := by
  rcases hq : h a with _ | n <;> simp [writePrev, hq, hupd, hb]

theorem writeNext_other (h : Heap) (a b : Nat) (q : Option Nat) (hb : b ≠ a) :
    writeNext h a q b = h b := by
  rcases hq : h a with _ | n <;> simp [writeNext, hq, hupd, hb]

theorem writePrev_same (h : Heap) (a : Nat) (p : Option Nat) :
    writePrev h a p a = (h a).map (fun n => { n with prev := p }) := by
  rcases hq : h a with _ | n <;> simp [writePrev, hq, hupd]

theorem writeNext_same (h : Heap) (a : Nat) (q : Option Nat) :
    writeNext h a q a = (h a).map (fun n => { n with next := q }) := by
  rcases hq : h a with _ | n <;> simp [writeNext, hq, hupd]

theorem dataAt_writePrev (h : Heap) (x a : Nat) (p : Option Nat) :
    dataAt (writePrev h x p) a = dataAt h a := by
  by_cases hax : a = x
  · subst hax
    rcases hq : h a with _ | n <;> simp [dataAt, writePrev, hq, hupd]
  · simp [dataAt, writePrev_other h x a p hax]

theorem dataAt_writeNext (h : Heap) (x a : Nat) (q : Option Nat) :
    dataAt (writeNext h x q) a = dataAt h a := by
  by_cases hax : a = x
  · subst hax
    rcases hq : h a with _ | n <;> simp [dataAt, writeNext, hq, hupd]
  · simp [dataAt, writeNext_other h x a q hax]

theorem dataAt_hupd_other (h : Heap) (x a : Nat) (v : Option Node) (hax : a ≠ x) :
    dataAt (hupd h x v) a = dataAt h a := by
  simp [dataAt, hupd_other h x a v hax]

/-! ### Chain lemmas -/

theorem headOr_none (as : List Nat) : headOr as none = as.head? := by
  cases as <;> rfl

theorem headOr_append_cons (bs : List Nat) (t : Nat) (ts : List Nat) (q : Option Nat) :
    headOr (bs ++ t :: ts) q = headOr bs (some t) := by
  cases bs <;> rfl

theorem lastOr_cons (b : Nat) (bs : List Nat) (p : Option Nat) :
    lastOr (b :: bs) p = lastOr bs (some b) := by
  simp [lastOr]

theorem lastOr_some : ∀ (bs : List Nat) (a : Nat), lastOr bs (some a) = (a :: bs).getLast?
  | [], a => by simp [lastOr]
  | b :: bs, a => by
    rw [lastOr_cons, lastOr_some bs b, List.getLast?_cons_cons]

theorem lastOr_none : ∀ as : List Nat, lastOr as none = as.getLast?
  | [] => rfl
  | a :: bs => by rw [lastOr_cons, lastOr_some bs a]

theorem lastOr_concat (t : Nat) : ∀ (bs : List Nat) (p : Option Nat),
    lastOr (bs ++ [t]) p = some t := by
  intro bs
  induction bs with
  | nil => intro p; simp [lastOr]
  | cons b bs' ih => intro p; rw [List.cons_append, lastOr_cons]; exact ih (some b)

theorem vals_congr (h1 h2 : Heap) : ∀ as : List Nat,
    (∀ a ∈ as, dataAt h1 a = dataAt h2 a) → vals h1 as = vals h2 as := by
  intro as
  induction as with
  | nil => intro _; rfl
  | cons a rest ih =>
    intro hag
    have ha := hag a (by simp)
    have hr := ih fun b hb => hag b (by simp [hb])
    simp [vals] at hr ⊢
    exact ⟨ha, hr⟩

theorem chainSeg_congr (h1 h2 : Heap) : ∀ as : List Nat,
    (∀ a ∈ as, h1 a = h2 a) → ∀ p q, chainSeg h1 p as q = chainSeg h2 p as q := by
  intro as
  induction as with
  | nil => intro _ p q; rfl
  | cons a rest ih =>
    intro hag p q
    have ha : h1 a = h2 a := hag a (by simp)
    have hrest := ih fun b hb => hag b (by simp [hb])
    simp [chainSeg, nodeOK, ha, hrest (some a) q]

theorem chainSeg_concat (h : Heap) (t : Nat) : ∀ (bs : List Nat) (p q : Option Nat),
    chainSeg h p (bs ++ [t]) q =
      (chainSeg h p bs (some t) && nodeOK h t (lastOr bs p) q) := by
  intro bs
  induction bs with
  | nil => intro p q; simp [chainSeg, lastOr, headOr]
  | cons b bs' ih =>
    intro p q
    have hh : headOr (bs' ++ [t]) q = headOr bs' (some t) := headOr_append_cons bs' t [] q
    rw [List.cons_append]
    simp only [chainSeg, hh, ih (some b) q]
    rw [lastOr_cons, Bool.and_assoc]

/-! ### Traversal along a valid chain -/

theorem traverseFwd_chain (h : Heap) : ∀ (as : List Nat) (p : Option Nat) (fuel : Nat),
    chainSeg h p as none = true → as.length ≤ fuel →
    traverseFwd h fuel (headOr as none) = some (vals h as) := by
  intro as
  induction as with
  | nil =>
    intro p fuel _ _
    cases fuel <;> simp [headOr, traverseFwd, vals]
  | cons a rest ih =>
    intro p fuel hchain hlen
    cases fuel with
    | zero => simp at hlen
    | succ f =>
      simp only [chainSeg, Bool.and_eq_true] at hchain
      obtain ⟨hnode, hrest⟩ := hchain
      rcases hq : h a with _ | n
      · simp [nodeOK, hq] at hnode
      · simp only [nodeOK, hq, Bool.and_eq_true, beq_iff_eq] at hnode
        obtain ⟨_, hnext⟩ := hnode
        simp only [headOr, traverseFwd, hq]
        rw [hnext, headOr_none, ← headOr_none rest,
          ih (some a) f hrest (by simp at hlen; omega)]
        simp [vals, dataAt, hq]

theorem traverseBwd_chain (h : Heap) : ∀ (as : List Nat) (q : Option Nat) (fuel : Nat),
    chainSeg h none as q = true → as.length ≤ fuel →
    traverseBwd h fuel (lastOr as none) = some (vals h as).reverse := by
  intro as
  induction as using List.reverseRecOn with
  | nil =>
    intro q fuel _ _
    cases fuel <;> simp [lastOr, traverseBwd, vals]
  | append_singleton bs t ih =>
    intro q fuel hchain hlen
    cases fuel with
    | zero => simp at hlen
    | succ f =>
      rw [chainSeg_concat, Bool.and_eq_true] at hchain
      obtain ⟨hbs, hnode⟩ := hchain
      rcases hq : h t with _ | n
      · simp [nodeOK, hq] at hnode
      · simp only [nodeOK, hq, Bool.and_eq_true, beq_iff_eq] at hnode
        obtain ⟨hprev, _⟩ := hnode
        rw [lastOr_concat]
        simp only [traverseBwd, hq]
        rw [hprev, ih (some t) f hbs (by simp at hlen; omega)]
        simp [vals, dataAt, hq]

/-! ### Rewriting the boundary links of a chain -/

theorem chainSeg_writePrev_head (h : Heap) (a : Nat) (rest : List Nat) (p p' q : Option Nat)
    (hchain : chainSeg h p (a :: rest) q = true) (hna : a ∉ rest) :
    chainSeg (writePrev h a p') p' (a :: rest) q = true := by
  simp only [chainSeg, Bool.and_eq_true] at hchain ⊢
  obtain ⟨hnode, hrest⟩ := hchain
  constructor
  · rcases hq : h a with _ | n
    · simp [nodeOK, hq] at hnode
    · simp only [nodeOK, hq, Bool.and_eq_true, beq_iff_eq] at hnode
      simp [nodeOK, writePrev, hq, hupd_same, hnode.2]
  · rw [chainSeg_congr (writePrev h a p') h rest
      (fun b hb => writePrev_other h a b p' (fun hba => hna (hba ▸ hb))) (some a) q]
    exact hrest

theorem chainSeg_writeNext_last (h : Heap) (b : Nat) (bs : List Nat) (p q q' : Option Nat)
    (hchain : chainSeg h p (bs ++ [b]) q = true) (hnb : b ∉ bs) :
    chainSeg (writeNext h b q') p (bs ++ [b]) q' = true := by
  rw [chainSeg_concat, Bool.and_eq_true] at hchain ⊢
  obtain ⟨hbs, hnode⟩ := hchain
  constructor
  · rw [chainSeg_congr (writeNext h b q') h bs
      (fun x hx => writeNext_other h b x q' (fun hxb => hnb (hxb ▸ hx))) p (some b)]
    exact hbs
  · rcases hq : h b with _ | n
    · simp [nodeOK, hq] at hnode
    · simp only [nodeOK, hq, Bool.and_eq_true, beq_iff_eq] at hnode
      simp [nodeOK, writeNext, hq, hupd_same, hnode.1]

/-! ### Unfolding the operations -/

theorem push_front_heap_none (l : DLL) (v : Int) (hh : l.head = none) :
    (push_front l v).heap =
      hupd l.heap l.fresh (some { data := v, prev := none, next := none }) := by
  simp [push_front, hh]

theorem push_front_heap_some (l : DLL) (v : Int) (b : Nat) (hh : l.head = some b) :
    (push_front l v).heap =
      writePrev (hupd l.heap l.fresh (some { data := v, prev := none, next := some b }))
        b (some l.fresh) := by
  simp [push_front, hh]

theorem push_front_head (l : DLL) (v : Int) : (push_front l v).head = some l.fresh := rfl

theorem push_front_size (l : DLL) (v : Int) : (push_front l v).size_ = l.size_ + 1 := rfl

theorem push_front_fresh (l : DLL) (v : Int) : (push_front l v).fresh = l.fresh + 1 := rfl

theorem push_front_tail_none (l : DLL) (v : Int) (ht : l.tail = none) :
    (push_front l v).tail = some l.fresh := by
  simp [push_front, ht]

theorem push_front_tail_some (l : DLL) (v : Int) (t : Nat) (ht : l.tail = some t) :
    (push_front l v).tail = some t := by
  simp [push_front, ht]

theorem push_back_heap_none (l : DLL) (v : Int) (ht : l.tail = none) :
    (push_back l v).heap =
      hupd l.heap l.fresh (some { data := v, prev := none, next := none }) := by
  simp [push_back, ht]

theorem push_back_heap_some (l : DLL) (v : Int) (b : Nat) (ht : l.tail = some b) :
    (push_back l v).heap =
      writeNext (hupd l.heap l.fresh (some { data := v, prev := some b, next := none }))
        b (some l.fresh) := by
  simp [push_back, ht]

theorem push_back_tail (l : DLL) (v : Int) : (push_back l v).tail = some l.fresh := rfl

theorem push_back_size (l : DLL) (v : Int) : (push_back l v).size_ = l.size_ + 1 := rfl

theorem push_back_fresh (l : DLL) (v : Int) : (push_back l v).fresh = l.fresh + 1 := rfl

theorem push_back_head_none (l : DLL) (v : Int) (hh : l.head = none) :
    (push_back l v).head = some l.fresh := by
  simp [push_back, hh]

theorem push_back_head_some (l : DLL) (v : Int) (b : Nat) (hh : l.head = some b) :
    (push_back l v).head = some b := by
  simp [push_back, hh]

theorem pop_front_underflow (l : DLL) (hs : l.size_ = 0) : pop_front l = .underflow := by
  simp [pop_front, hs]

theorem pop_back_underflow (l : DLL) (hs : l.size_ = 0) : pop_back l = .underflow := by
  simp [pop_back, hs]

theorem pop_front_eq (l : DLL) (a : Nat) (n : Node) (hs : l.size_ ≠ 0)
    (hh : l.head = some a) (hq : l.heap a = some n) :
    pop_front l = .ok n.data
      { heap := hupd (match n.next with
          | some b => writePrev l.heap b none
          | none => l.heap) a none
        head := n.next
        tail := match n.next with | some _ => l.tail | none => none
        size_ := l.size_ - 1
        fresh := l.fresh } := by
  simp [pop_front, hs, hh, hq]

theorem pop_back_eq (l : DLL) (a : Nat) (n : Node) (hs : l.size_ ≠ 0)
    (ht : l.tail = some a) (hq : l.heap a = some n) :
    pop_back l = .ok n.data
      { heap := hupd (match n.prev with
          | some b => writeNext l.heap b none
          | none => l.heap) a none
        head := match n.prev with | some _ => l.head | none => none
        tail := n.prev
        size_ := l.size_ - 1
        fresh := l.fresh } := by
  simp [pop_back, hs, ht, hq]

/-! ### More helpers -/

theorem lastOr_some_isSome : ∀ (bs : List Nat) (a : Nat), ∃ x, lastOr bs (some a) = some x
  | [], a => ⟨a, by simp [lastOr]⟩
  | b :: bs, a => by rw [lastOr_cons]; exact lastOr_some_isSome bs b

theorem cons_getLast?_isSome (a : Nat) (bs : List Nat) : ∃ x, (a :: bs).getLast? = some x := by
  rw [← lastOr_some]; exact lastOr_some_isSome bs a

theorem invWith_empty : emptyDLL.InvWith [] := by
  simp [DLL.InvWith, emptyDLL, chainSeg]

theorem chainSeg_cons (h : Heap) (p q : Option Nat) (a : Nat) (rest : List Nat) :
    chainSeg h p (a :: rest) q =
      (nodeOK h a p (headOr rest q) && chainSeg h (some a) rest q) := by
  simp only [chainSeg]

/-! ### The pushes preserve the invariant -/

theorem push_front_invWith (l : DLL) (v : Int) (as : List Nat) (hI : l.InvWith as) :
    (push_front l v).InvWith (l.fresh :: as) ∧
      vals (push_front l v).heap (l.fresh :: as) = v :: vals l.heap as := by
  obtain ⟨hchain, hhead, htail, hlen, hnodup, hfr⟩ := hI
  have hfnotin : l.fresh ∉ as := fun hmem => absurd (hfr _ hmem) (by omega)
  rcases as with _ | ⟨a, rest⟩
  · have hh : l.head = none := by simpa using hhead
    have ht : l.tail = none := by simpa using htail
    rw [DLL.InvWith, push_front_heap_none l v hh, push_front_head,
      push_front_tail_none l v ht, push_front_size, push_front_fresh]
    refine ⟨⟨?_, rfl, rfl, by simpa using hlen.symm ▸ rfl, by simp, ?_⟩, ?_⟩
    · simp [chainSeg, nodeOK, headOr, hupd_same]
    · intro a ha; simp at ha; omega
    · simp [vals, dataAt, hupd_same]
  · have hh : l.head = some a := by simpa using hhead
    have haf : a ≠ l.fresh := by
      have := hfr a (by simp)
      omega
    obtain ⟨t, htx⟩ := cons_getLast?_isSome a rest
    have ht : l.tail = some t := htail.trans htx
    have hanodup : a ∉ rest := by simp at hnodup; exact hnodup.1
    have hrest_nodup : rest.Nodup := by simp at hnodup; exact hnodup.2
    rw [DLL.InvWith, push_front_heap_some l v a hh, push_front_head,
      push_front_tail_some l v t ht, push_front_size, push_front_fresh]
    set h1 : Heap :=
      hupd l.heap l.fresh (some { data := v, prev := none, next := some a }) with hh1
    have hagree : ∀ b ∈ a :: rest, h1 b = l.heap b := by
      intro b hb
      exact hupd_other l.heap l.fresh b _ (fun hbf => hfnotin (hbf ▸ hb))
    have hchain1 : chainSeg h1 none (a :: rest) none = true := by
      rw [chainSeg_congr h1 l.heap (a :: rest) hagree none none]
      exact hchain
    have hchain2 :
        chainSeg (writePrev h1 a (some l.fresh)) (some l.fresh) (a :: rest) none = true :=
      chainSeg_writePrev_head h1 a rest none (some l.fresh) none hchain1 hanodup
    refine ⟨⟨?_, rfl, ?_, by simpa using hlen, ?_, ?_⟩, ?_⟩
    · rw [chainSeg_cons, Bool.and_eq_true]
      refine ⟨?_, hchain2⟩
      have hf1 : writePrev h1 a (some l.fresh) l.fresh = h1 l.fresh :=
        writePrev_other h1 a l.fresh (some l.fresh) (fun h => haf h.symm)
      simp [nodeOK, hf1, hh1, hupd_same, headOr]
    · rw [List.getLast?_cons_cons, htx]
    · simp only [List.nodup_cons]
      exact ⟨by simpa using hfnotin, by simp [hanodup, hrest_nodup]⟩
    · intro b hb
      rcases List.mem_cons.mp hb with hbf | hbm
      · omega
      · have := hfr b hbm
        omega
    · have hdata : ∀ b ∈ a :: rest,
          dataAt (writePrev h1 a (some l.fresh)) b = dataAt l.heap b := by
        intro b hb
        rw [dataAt_writePrev]
        exact dataAt_hupd_other l.heap l.fresh b _ (fun hbf => hfnotin (hbf ▸ hb))
      have hfv : dataAt (writePrev h1 a (some l.fresh)) l.fresh = v := by
        have hf1 : writePrev h1 a (some l.fresh) l.fresh = h1 l.fresh :=
          writePrev_other h1 a l.fresh (some l.fresh) (fun h => haf h.symm)
        simp [dataAt, hf1, hh1, hupd_same]
      have hrest := vals_congr (writePrev h1 a (some l.fresh)) l.heap (a :: rest) hdata
      calc vals (writePrev h1 a (some l.fresh)) (l.fresh :: a :: rest)
          = dataAt (writePrev h1 a (some l.fresh)) l.fresh ::
              vals (writePrev h1 a (some l.fresh)) (a :: rest) := by simp [vals]
        _ = v :: vals l.heap (a :: rest) := by rw [hfv, hrest]

theorem head?_append_singleton (as : List Nat) (f : Nat) (hne : as ≠ []) :
    (as ++ [f]).head? = as.head? := by
  cases as with
  | nil => exact absurd rfl hne
  | cons a as' => rfl

theorem push_back_invWith (l : DLL) (v : Int) (as : List Nat) (hI : l.InvWith as) :
    (push_back l v).InvWith (as ++ [l.fresh]) ∧
      vals (push_back l v).heap (as ++ [l.fresh]) = vals l.heap as ++ [v] := by
  obtain ⟨hchain, hhead, htail, hlen, hnodup, hfr⟩ := hI
  have hfnotin : l.fresh ∉ as := fun hmem => absurd (hfr _ hmem) (by omega)
  rcases List.eq_nil_or_concat as with hnil | ⟨L, t, hLt⟩
  · subst hnil
    have hh : l.head = none := by simpa using hhead
    have ht : l.tail = none := by simpa using htail
    rw [DLL.InvWith, push_back_heap_none l v ht, push_back_head_none l v hh,
      push_back_tail, push_back_size, push_back_fresh]
    refine ⟨⟨?_, rfl, rfl, ?_, by simp, ?_⟩, ?_⟩
    · simp [chainSeg, nodeOK, headOr, hupd_same]
    · simp at hlen ⊢
      omega
    · intro a ha; simp at ha; omega
    · simp [vals, dataAt, hupd_same]
  · rw [List.concat_eq_append] at hLt
    subst hLt
    have hne : L ++ [t] ≠ [] := by simp
    obtain ⟨x, hx⟩ : ∃ x, (L ++ [t]).head? = some x := by
      cases L with
      | nil => exact ⟨t, rfl⟩
      | cons c L' => exact ⟨c, rfl⟩
    have hh : l.head = some x := hhead.trans hx
    have ht : l.tail = some t := by rw [htail, List.getLast?_concat]
    have htmem : t ∈ L ++ [t] := by simp
    have htf : t ≠ l.fresh := fun hq => absurd (hfr t htmem) (by omega)
    have hd := (List.nodup_append.mp hnodup).2.2
    have htL : t ∉ L := fun hmem => hd hmem (by simp)
    rw [DLL.InvWith, push_back_heap_some l v t ht, push_back_head_some l v x hh,
      push_back_tail, push_back_size, push_back_fresh]
    set h1 : Heap :=
      hupd l.heap l.fresh (some { data := v, prev := some t, next := none }) with hh1
    have hagree : ∀ b ∈ L ++ [t], h1 b = l.heap b := by
      intro b hb
      exact hupd_other l.heap l.fresh b _ (fun hbf => hfnotin (hbf ▸ hb))
    have hchain1 : chainSeg h1 none (L ++ [t]) none = true := by
      rw [chainSeg_congr h1 l.heap (L ++ [t]) hagree none none]
      exact hchain
    have hchain2 :
        chainSeg (writeNext h1 t (some l.fresh)) none (L ++ [t]) (some l.fresh) = true :=
      chainSeg_writeNext_last h1 t L none none (some l.fresh) hchain1 htL
    refine ⟨⟨?_, ?_, ?_, ?_, ?_, ?_⟩, ?_⟩
    · rw [chainSeg_concat, Bool.and_eq_true]
      refine ⟨hchain2, ?_⟩
      have hf1 : writeNext h1 t (some l.fresh) l.fresh = h1 l.fresh :=
        writeNext_other h1 t l.fresh (some l.fresh) (fun hq => htf hq.symm)
      simp [nodeOK, hf1, hh1, hupd_same, lastOr_concat]
    · rw [head?_append_singleton (L ++ [t]) l.fresh hne, hx]
    · rw [List.getLast?_concat]
    · simp at hlen ⊢
      omega
    · refine List.nodup_append.mpr ⟨hnodup, by simp, ?_⟩
      intro a ha haf
      simp at haf
      exact hfnotin (haf ▸ ha)
    · intro b hb
      rcases List.mem_append.mp hb with hbm | hbf
      · have := hfr b hbm
        omega
      · simp at hbf
        omega
    · have hdata : ∀ b ∈ L ++ [t],
          dataAt (writeNext h1 t (some l.fresh)) b = dataAt l.heap b := by
        intro b hb
        rw [dataAt_writeNext]
        exact dataAt_hupd_other l.heap l.fresh b _ (fun hbf => hfnotin (hbf ▸ hb))
      have hvv := vals_congr (writeNext h1 t (some l.fresh)) l.heap (L ++ [t]) hdata
      have hfv : dataAt (writeNext h1 t (some l.fresh)) l.fresh = v := by
        have hf1 : writeNext h1 t (some l.fresh) l.fresh = h1 l.fresh :=
          writeNext_other h1 t l.fresh (some l.fresh) (fun hq => htf hq.symm)
        simp [dataAt, hf1, hh1, hupd_same]
      calc vals (writeNext h1 t (some l.fresh)) ((L ++ [t]) ++ [l.fresh])
          = vals (writeNext h1 t (some l.fresh)) (L ++ [t]) ++
              [dataAt (writeNext h1 t (some l.fresh)) l.fresh] := by simp [vals]
        _ = vals l.heap (L ++ [t]) ++ [v] := by rw [hvv, hfv]

/-! ### The pops preserve the invariant -/

theorem pop_front_invWith (l : DLL) (a : Nat) (rest : List Nat)
    (hI : l.InvWith (a :: rest)) :
    ∃ l2, pop_front l = .ok (dataAt l.heap a) l2 ∧ l2.InvWith rest ∧
      vals l2.heap rest = vals l.heap rest ∧ l2.size_ = l.size_ - 1 ∧
      l2.fresh = l.fresh := by
  obtain ⟨hchain, hhead, htail, hlen, hnodup, hfr⟩ := hI
  have hs : l.size_ ≠ 0 := by simp at hlen; omega
  have hh : l.head = some a := by simpa using hhead
  have hanodup : a ∉ rest := by simp at hnodup; exact hnodup.1
  have hrest_nodup : rest.Nodup := by simp at hnodup; exact hnodup.2
  rw [chainSeg_cons, Bool.and_eq_true] at hchain
  obtain ⟨hnode, hrestc⟩ := hchain
  rcases hq : l.heap a with _ | n
  · simp [nodeOK, hq] at hnode
  · simp only [nodeOK, hq, Bool.and_eq_true, beq_iff_eq] at hnode
    obtain ⟨hprev, hnext⟩ := hnode
    have hda : dataAt l.heap a = n.data := by simp [dataAt, hq]
    have hpe := pop_front_eq l a n hs hh hq
    rw [hda]
    rcases rest with _ | ⟨b, rest2⟩
    · have hnext0 : n.next = none := by simpa [headOr] using hnext
      simp only [hnext0] at hpe
      refine ⟨_, hpe, ⟨by simp [chainSeg], rfl, rfl, ?_, by simp, by simp⟩,
        by simp [vals], rfl, rfl⟩
      simp at hlen ⊢; omega
    · have hnextb : n.next = some b := by simpa [headOr] using hnext
      simp only [hnextb] at hpe
      have hbn : b ∉ rest2 := (List.nodup_cons.mp hrest_nodup).1
      have hchain2 : chainSeg (writePrev l.heap b none) none (b :: rest2) none = true :=
        chainSeg_writePrev_head l.heap b rest2 (some a) none none hrestc hbn
      have hagree : ∀ x ∈ b :: rest2,
          hupd (writePrev l.heap b none) a none x = writePrev l.heap b none x := by
        intro x hx
        exact hupd_other _ a x none (fun hxa => hanodup (hxa ▸ hx))
      refine ⟨_, hpe, ⟨?_, rfl, ?_, ?_, hrest_nodup, ?_⟩, ?_, rfl, rfl⟩
      · rw [chainSeg_congr _ (writePrev l.heap b none) (b :: rest2) hagree none none]
        exact hchain2
      · rw [htail, List.getLast?_cons_cons]
      · simp at hlen ⊢; omega
      · intro x hx
        exact hfr x (by simp [hx])
      · refine vals_congr _ _ (b :: rest2) ?_
        intro x hx
        rw [dataAt_hupd_other _ a x none (fun hxa => hanodup (hxa ▸ hx)), dataAt_writePrev]

theorem pop_back_invWith (l : DLL) (bs : List Nat) (t : Nat)
    (hI : l.InvWith (bs ++ [t])) :
    ∃ l2, pop_back l = .ok (dataAt l.heap t) l2 ∧ l2.InvWith bs ∧
      vals l2.heap bs = vals l.heap bs ∧ l2.size_ = l.size_ - 1 ∧
      l2.fresh = l.fresh := by
  obtain ⟨hchain, hhead, htail, hlen, hnodup, hfr⟩ := hI
  have hs : l.size_ ≠ 0 := by simp at hlen; omega
  have ht : l.tail = some t := by rw [htail, List.getLast?_concat]
  have hdis := (List.nodup_append.mp hnodup).2.2
  have htbs : t ∉ bs := fun hmem => hdis hmem (by simp)
  have hbs_nodup : bs.Nodup := (List.nodup_append.mp hnodup).1
  rw [chainSeg_concat, Bool.and_eq_true] at hchain
  obtain ⟨hbsc, hnode⟩ := hchain
  rcases hq : l.heap t with _ | n
  · simp [nodeOK, hq] at hnode
  · simp only [nodeOK, hq, Bool.and_eq_true, beq_iff_eq] at hnode
    obtain ⟨hprev, hnextn⟩ := hnode
    have hda : dataAt l.heap t = n.data := by simp [dataAt, hq]
    have hpe := pop_back_eq l t n hs ht hq
    rw [hda]
    rcases List.eq_nil_or_concat bs with hnil | ⟨M, x, hMx⟩
    · subst hnil
      have hprev0 : n.prev = none := by simpa [lastOr] using hprev
      simp only [hprev0] at hpe
      refine ⟨_, hpe, ⟨by simp [chainSeg], rfl, rfl, ?_, by simp, by simp⟩,
        by simp [vals], rfl, rfl⟩
      simp at hlen ⊢; omega
    · rw [List.concat_eq_append] at hMx
      subst hMx
      have hbne : M ++ [x] ≠ [] := by simp
      have hprevx : n.prev = some x := by rw [hprev, lastOr_concat]
      simp only [hprevx] at hpe
      have hxM : x ∉ M := fun hmem => (List.nodup_append.mp hbs_nodup).2.2 hmem (by simp)
      have hchain2 :
          chainSeg (writeNext l.heap x none) none (M ++ [x]) none = true :=
        chainSeg_writeNext_last l.heap x M none (some t) none hbsc hxM
      have hagree : ∀ y ∈ M ++ [x],
          hupd (writeNext l.heap x none) t none y = writeNext l.heap x none y := by
        intro y hy
        exact hupd_other _ t y none (fun hyt => htbs (hyt ▸ hy))
      obtain ⟨c, hc⟩ : ∃ c, (M ++ [x]).head? = some c := by
        cases M with
        | nil => exact ⟨x, rfl⟩
        | cons m M' => exact ⟨m, rfl⟩
      have hh : l.head = some c := by
        rw [hhead, head?_append_singleton (M ++ [x]) t hbne, hc]
      refine ⟨_, hpe, ⟨?_, ?_, ?_, ?_, hbs_nodup, ?_⟩, ?_, rfl, rfl⟩
      · rw [chainSeg_congr _ (writeNext l.heap x none) (M ++ [x]) hagree none none]
        exact hchain2
      · rw [hh, hc]
      · rw [List.getLast?_concat]
      · simp at hlen ⊢; omega
      · intro y hy
        exact hfr y (by simp at hy ⊢; tauto)
      · refine vals_congr _ _ (M ++ [x]) ?_
        intro y hy
        rw [dataAt_hupd_other _ t y none (fun hyt => htbs (hyt ▸ hy)), dataAt_writeNext]

/-! ### Invariant-level corollaries -/

theorem push_front_inv (l : DLL) (v : Int) (hI : DLL.Inv l) : DLL.Inv (push_front l v) := by
  obtain ⟨as, h⟩ := hI
  exact ⟨_, (push_front_invWith l v as h).1⟩

theorem push_back_inv (l : DLL) (v : Int) (hI : DLL.Inv l) : DLL.Inv (push_back l v) := by
  obtain ⟨as, h⟩ := hI
  exact ⟨_, (push_back_invWith l v as h).1⟩

theorem pop_front_ok (l : DLL) (hI : DLL.Inv l) (hs : l.size_ ≠ 0) :
    ∃ v l2, pop_front l = .ok v l2 ∧ DLL.Inv l2 ∧ l2.size_ = l.size_ - 1 := by
  obtain ⟨as, hIW⟩ := hI
  rcases as with _ | ⟨a, rest⟩
  · have := hIW.2.2.2.1
    simp at this
    omega
  · obtain ⟨l2, hpe, hI2, _, hsz, _⟩ := pop_front_invWith l a rest hIW
    exact ⟨_, l2, hpe, ⟨rest, hI2⟩, hsz⟩

theorem pop_back_ok (l : DLL) (hI : DLL.Inv l) (hs : l.size_ ≠ 0) :
    ∃ v l2, pop_back l = .ok v l2 ∧ DLL.Inv l2 ∧ l2.size_ = l.size_ - 1 := by
  obtain ⟨as, hIW⟩ := hI
  rcases List.eq_nil_or_concat as with hnil | ⟨M, t, hMt⟩
  · subst hnil
    have := hIW.2.2.2.1
    simp at this
    omega
  · rw [List.concat_eq_append] at hMt
    subst hMt
    obtain ⟨l2, hpe, hI2, _, hsz, _⟩ := pop_back_invWith l M t hIW
    exact ⟨_, l2, hpe, ⟨M, hI2⟩, hsz⟩

theorem pop_front_inv_of_eq (l : DLL) (v : Int) (l2 : DLL) (hI : DLL.Inv l)
    (heq : pop_front l = .ok v l2) : DLL.Inv l2 := by
  by_cases hs : l.size_ = 0
  · rw [pop_front_underflow l hs] at heq
    exact PopRes.noConfusion heq
  · obtain ⟨v2, l3, hpe, hI2, _⟩ := pop_front_ok l hI hs
    rw [heq] at hpe
    injection hpe with hv hl
    subst hl
    exact hI2

theorem pop_back_inv_of_eq (l : DLL) (v : Int) (l2 : DLL) (hI : DLL.Inv l)
    (heq : pop_back l = .ok v l2) : DLL.Inv l2 := by
  by_cases hs : l.size_ = 0
  · rw [pop_back_underflow l hs] at heq
    exact PopRes.noConfusion heq
  · obtain ⟨v2, l3, hpe, hI2, _⟩ := pop_back_ok l hI hs
    rw [heq] at hpe
    injection hpe with hv hl
    subst hl
    exact hI2

theorem reachable_inv (l : DLL) (hr : Reachable l) : DLL.Inv l := by
  induction hr with
  | empty => exact ⟨[], invWith_empty⟩
  | pushF l1 v _ ih => exact push_front_inv l1 v ih
  | pushB l1 v _ ih => exact push_back_inv l1 v ih
  | popF l1 v l2 _ heq ih => exact pop_front_inv_of_eq l1 v l2 ih heq
  | popB l1 v l2 _ heq ih => exact pop_back_inv_of_eq l1 v l2 ih heq

theorem invWith_head_prev (l : DLL) (as : List Nat) (hI : l.InvWith as) (b : Nat)
    (hb : l.head = some b) : ∃ n, l.heap b = some n ∧ n.prev = none := by
  obtain ⟨hchain, hhead, -, -, -, -⟩ := hI
  rcases as with _ | ⟨a, rest⟩
  · rw [hb] at hhead
    simp at hhead
  · rw [hb] at hhead
    simp at hhead
    subst hhead
    rw [chainSeg_cons, Bool.and_eq_true] at hchain
    obtain ⟨hnode, -⟩ := hchain
    rcases hq : l.heap b with _ | n
    · simp [nodeOK, hq] at hnode
    · simp only [nodeOK, hq, Bool.and_eq_true, beq_iff_eq] at hnode
      exact ⟨n, rfl, hnode.1⟩

theorem invWith_tail_next (l : DLL) (as : List Nat) (hI : l.InvWith as) (b : Nat)
    (hb : l.tail = some b) : ∃ n, l.heap b = some n ∧ n.next = none := by
  obtain ⟨hchain, -, htail, -, -, -⟩ := hI
  rcases List.eq_nil_or_concat as with hnil | ⟨M, t, hMt⟩
  · subst hnil
    rw [hb] at htail
    simp at htail
  · rw [List.concat_eq_append] at hMt
    subst hMt
    rw [hb, List.getLast?_concat] at htail
    simp at htail
    subst htail
    rw [chainSeg_concat, Bool.and_eq_true] at hchain
    obtain ⟨-, hnode⟩ := hchain
    rcases hq : l.heap b with _ | n
    · simp [nodeOK, hq] at hnode
    · simp only [nodeOK, hq, Bool.and_eq_true, beq_iff_eq] at hnode
      exact ⟨n, rfl, hnode.2⟩

theorem inv_size_zero (l : DLL) (hI : DLL.Inv l) (hs : l.size_ = 0) :
    l.head = none ∧ l.tail = none := by
  obtain ⟨as, hchain, hhead, htail, hlen, -, -⟩ := hI
  rcases as with _ | ⟨a, rest⟩
  · simp at hhead htail
    exact ⟨hhead, htail⟩
  · rw [hs] at hlen
    simp at hlen

/-! ### Demo scenario states (`src/main.cpp` lines 163-183) -/

/-- The demo list after `push_front(3); push_front(2); push_front(1)`. -/
def demo3 : DLL := push_front (push_front (push_front emptyDLL 3) 2) 1

/-- The demo list after the additional `push_back(4); push_back(5)`. -/
def demo5 : DLL := push_back (push_back demo3 4) 5

/-- The demo list after the `pop_front()` call. -/
def demo6 : DLL := popState demo5 (pop_front demo5)

/-- The demo list after the subsequent `pop_back()` call. -/
def demo7 : DLL := popState demo6 (pop_back demo6)

/-! ### Claim theorems -/

/-- C1: every public operation (push_front, push_back, pop_front, pop_back)
preserves the structural invariant `DLL.Inv` (empty state: null head and
tail and count 0; non-empty state: a chain of exactly `size_` mutually
linked nodes from `head` to `tail` with null boundary links), so every
list reachable from the empty list satisfies it; in addition the invariant
yields the claimed shape facts: at count 0 both head and tail are null,
the head node's backward link is null, and the tail node's forward link is
null. -/
theorem C1_operations_preserve_invariant :
    DLL.Inv emptyDLL ∧
    (∀ l v, DLL.Inv l → DLL.Inv (push_front l v)) ∧
    (∀ l v, DLL.Inv l → DLL.Inv (push_back l v)) ∧
    (∀ l v l2, DLL.Inv l → pop_front l = .ok v l2 → DLL.Inv l2) ∧
    (∀ l v l2, DLL.Inv l → pop_back l = .ok v l2 → DLL.Inv l2) ∧
    (∀ l, Reachable l → DLL.Inv l) ∧
    (∀ l, DLL.Inv l → l.size_ = 0 → l.head = none ∧ l.tail = none) ∧
    (∀ l b, DLL.Inv l → l.head = some b → ∃ n, l.heap b = some n ∧ n.prev = none) ∧
    (∀ l b, DLL.Inv l → l.tail = some b → ∃ n, l.heap b = some n ∧ n.next = none) :=
  ⟨⟨[], invWith_empty⟩,
   push_front_inv,
   push_back_inv,
   pop_front_inv_of_eq,
   pop_back_inv_of_eq,
   reachable_inv,
   inv_size_zero,
   fun l b hI hb => by
     obtain ⟨as, hIW⟩ := hI
     exact invWith_head_prev l as hIW b hb,
   fun l b hI hb => by
     obtain ⟨as, hIW⟩ := hI
     exact invWith_tail_next l as hIW b hb⟩

theorem C1_operations_preserve_invariant_witness : DLL.Inv (push_front emptyDLL 5) :=
  C1_operations_preserve_invariant.2.1 emptyDLL 5 ⟨[], invWith_empty⟩

/-- C3: `pop_front` and `pop_back` on an empty list raise Underflow and
leave the list unchanged, so it is still valid and empty: `size() == 0`
and `empty() == true` hold after the failed call. -/
theorem C3_pop_empty_underflow (l : DLL) (hs : l.size_ = 0) :
    pop_front l = .underflow ∧ pop_back l = .underflow ∧
    popState l (pop_front l) = l ∧ popState l (pop_back l) = l ∧
    (popState l (pop_front l)).size = 0 ∧ (popState l (pop_front l)).empty = true ∧
    (popState l (pop_back l)).size = 0 ∧ (popState l (pop_back l)).empty = true := by
  have hf := pop_front_underflow l hs
  have hb := pop_back_underflow l hs
  rw [hf, hb]
  simp [popState, DLL.size, DLL.empty, hs]

theorem C3_pop_empty_underflow_witness :
    pop_front emptyDLL = .underflow ∧ pop_back emptyDLL = .underflow ∧
    popState emptyDLL (pop_front emptyDLL) = emptyDLL ∧
    popState emptyDLL (pop_back emptyDLL) = emptyDLL ∧
    (popState emptyDLL (pop_front emptyDLL)).size = 0 ∧
    (popState emptyDLL (pop_front emptyDLL)).empty = true ∧
    (popState emptyDLL (pop_back emptyDLL)).size = 0 ∧
    (popState emptyDLL (pop_back emptyDLL)).empty = true :=
  C3_pop_empty_underflow emptyDLL rfl

/-- C5: for every list state and value, pushing the value and then
immediately popping from the same end returns that value: after
`push_front(v)` a `pop_front()` returns `v`, and after `push_back(v)` a
`pop_back()` returns `v`. -/
theorem C5_push_pop_same_end (l : DLL) (v : Int) :
    popVal (pop_front (push_front l v)) = some v ∧
    popVal (pop_back (push_back l v)) = some v := by
  constructor
  · rcases hh : l.head with _ | b
    · simp [pop_front, popVal, push_front, hh, hupd, writePrev]
    · by_cases hbf : b = l.fresh
      · subst hbf
        simp [pop_front, popVal, push_front, hh, hupd, writePrev]
      · rcases hlb : l.heap b with _ | nb <;>
          simp [pop_front, popVal, push_front, hh, hlb, hupd, writePrev, hbf, Ne.symm hbf]
  · rcases ht : l.tail with _ | b
    · simp [pop_back, popVal, push_back, ht, hupd, writeNext]
    · by_cases hbf : b = l.fresh
      · subst hbf
        simp [pop_back, popVal, push_back, ht, hupd, writeNext]
      · rcases hlb : l.heap b with _ | nb <;>
          simp [pop_back, popVal, push_back, ht, hlb, hupd, writeNext, hbf, Ne.symm hbf]

/-- C7: from the empty list, `push_front(3); push_front(2); push_front(1)`
gives forward traversal `[1,2,3]` and backward traversal `[3,2,1]`; after
the further `push_back(4); push_back(5)` the forward traversal is
`[1,2,3,4,5]` and the backward traversal is `[5,4,3,2,1]`. -/
theorem C7_demo_traversals :
    traverseFwd demo3.heap 3 demo3.head = some [1, 2, 3] ∧
    traverseBwd demo3.heap 3 demo3.tail = some [3, 2, 1] ∧
    traverseFwd demo5.heap 5 demo5.head = some [1, 2, 3, 4, 5] ∧
    traverseBwd demo5.heap 5 demo5.tail = some [5, 4, 3, 2, 1] := by
  decide

/-- C8: on the 5-element demo list, `pop_front()` returns 1, the
subsequent `pop_back()` returns 5, the remaining forward traversal is
`[2,3,4]` and `size()` is 3. -/
theorem C8_demo_pops :
    popVal (pop_front demo5) = some 1 ∧
    popVal (pop_back demo6) = some 5 ∧
    traverseFwd demo7.heap 3 demo7.head = some [2, 3, 4] ∧
    demo7.size = 3 := by
  decide

theorem invWith_traverseFwd (l : DLL) (as : List Nat) (hIW : l.InvWith as)
    (fuel : Nat) (hf : l.size_ ≤ fuel) :
    traverseFwd l.heap fuel l.head = some (vals l.heap as) := by
  obtain ⟨hchain, hhead, -, hlen, -, -⟩ := hIW
  rw [hhead, ← headOr_none]
  exact traverseFwd_chain l.heap as none fuel hchain (by omega)

theorem invWith_traverseBwd (l : DLL) (as : List Nat) (hIW : l.InvWith as)
    (fuel : Nat) (hf : l.size_ ≤ fuel) :
    traverseBwd l.heap fuel l.tail = some (vals l.heap as).reverse := by
  obtain ⟨hchain, -, htail, hlen, -, -⟩ := hIW
  rw [htail, ← lastOr_none]
  exact traverseBwd_chain l.heap as none fuel hchain (by omega)

/-- C2: on every valid non-empty list `pop_front` succeeds, returning the
head value and leaving the remaining sequence (the old forward traversal
is the returned value consed onto the new one), decrements the count,
leaves the promoted head with a null backward link, and clears both head
and tail when the list becomes empty; `pop_back` behaves symmetrically at
the tail (the old forward traversal is the new one with the returned
value appended). -/
theorem C2_pop_behaviour (l : DLL) (hI : DLL.Inv l) (hs : l.size_ ≠ 0) :
    (∃ v l2 xs, pop_front l = .ok v l2 ∧
      traverseFwd l.heap l.size_ l.head = some (v :: xs) ∧
      traverseFwd l2.heap l2.size_ l2.head = some xs ∧
      l2.size_ = l.size_ - 1 ∧
      (∀ b, l2.head = some b → ∃ n, l2.heap b = some n ∧ n.prev = none) ∧
      (l2.size_ = 0 → l2.head = none ∧ l2.tail = none)) ∧
    (∃ v l2 xs, pop_back l = .ok v l2 ∧
      traverseFwd l.heap l.size_ l.head = some (xs ++ [v]) ∧
      traverseFwd l2.heap l2.size_ l2.head = some xs ∧
      l2.size_ = l.size_ - 1 ∧
      (∀ b, l2.tail = some b → ∃ n, l2.heap b = some n ∧ n.next = none) ∧
      (l2.size_ = 0 → l2.head = none ∧ l2.tail = none)) := by
  obtain ⟨as, hIW⟩ := hI
  constructor
  · rcases as with _ | ⟨a, rest⟩
    · have := hIW.2.2.2.1
      simp at this
      omega
    · obtain ⟨l2, hpe, hI2, hvals, hsz, -⟩ := pop_front_invWith l a rest hIW
      refine ⟨dataAt l.heap a, l2, vals l.heap rest, hpe, ?_, ?_, hsz, ?_, ?_⟩
      · rw [invWith_traverseFwd l (a :: rest) hIW l.size_ (Nat.le_refl _)]
        simp [vals]
      · rw [invWith_traverseFwd l2 rest hI2 l2.size_ (Nat.le_refl _), hvals]
      · intro b hb
        exact invWith_head_prev l2 rest hI2 b hb
      · intro hz
        exact inv_size_zero l2 ⟨rest, hI2⟩ hz
  · rcases List.eq_nil_or_concat as with hnil | ⟨M, t, hMt⟩
    · subst hnil
      have := hIW.2.2.2.1
      simp at this
      omega
    · rw [List.concat_eq_append] at hMt
      subst hMt
      obtain ⟨l2, hpe, hI2, hvals, hsz, -⟩ := pop_back_invWith l M t hIW
      refine ⟨dataAt l.heap t, l2, vals l.heap M, hpe, ?_, ?_, hsz, ?_, ?_⟩
      · rw [invWith_traverseFwd l (M ++ [t]) hIW l.size_ (Nat.le_refl _)]
        simp [vals]
      · rw [invWith_traverseFwd l2 M hI2 l2.size_ (Nat.le_refl _), hvals]
      · intro b hb
        exact invWith_tail_next l2 M hI2 b hb
      · intro hz
        exact inv_size_zero l2 ⟨M, hI2⟩ hz

theorem C2_pop_behaviour_witness :
    (∃ v l2 xs, pop_front (push_front emptyDLL 5) = .ok v l2 ∧
      traverseFwd (push_front emptyDLL 5).heap (push_front emptyDLL 5).size_
          (push_front emptyDLL 5).head = some (v :: xs) ∧
      traverseFwd l2.heap l2.size_ l2.head = some xs ∧
      l2.size_ = (push_front emptyDLL 5).size_ - 1 ∧
      (∀ b, l2.head = some b → ∃ n, l2.heap b = some n ∧ n.prev = none) ∧
      (l2.size_ = 0 → l2.head = none ∧ l2.tail = none)) ∧
    (∃ v l2 xs, pop_back (push_front emptyDLL 5) = .ok v l2 ∧
      traverseFwd (push_front emptyDLL 5).heap (push_front emptyDLL 5).size_
          (push_front emptyDLL 5).head = some (xs ++ [v]) ∧
      traverseFwd l2.heap l2.size_ l2.head = some xs ∧
      l2.size_ = (push_front emptyDLL 5).size_ - 1 ∧
      (∀ b, l2.tail = some b → ∃ n, l2.heap b = some n ∧ n.next = none) ∧
      (l2.size_ = 0 → l2.head = none ∧ l2.tail = none)) :=
  C2_pop_behaviour (push_front emptyDLL 5)
    (push_front_inv emptyDLL 5 ⟨[], invWith_empty⟩) (by decide)

/-- C9: on every list reachable by the public operations, the backward
traversal (following `prev` from `tail`) produces exactly the reverse of
the forward traversal (following `next` from `head`), for any fuel that
lets both loops finish. -/
theorem C9_backward_is_reverse (l : DLL) (fuel : Nat) (hr : Reachable l)
    (hf : l.size_ ≤ fuel) :
    traverseBwd l.heap fuel l.tail =
      (traverseFwd l.heap fuel l.head).map List.reverse := by
  obtain ⟨as, hIW⟩ := reachable_inv l hr
  rw [invWith_traverseFwd l as hIW fuel hf, invWith_traverseBwd l as hIW fuel hf]
  simp

theorem C9_backward_is_reverse_witness :
    traverseBwd demo3.heap 3 demo3.tail =
      (traverseFwd demo3.heap 3 demo3.head).map List.reverse :=
  C9_backward_is_reverse demo3 3
    (Reachable.pushF _ 1 (Reachable.pushF _ 2 (Reachable.pushF _ 3 Reachable.empty)))
    (by decide)

/-- C10: on every valid list, `push_front(a)` then `push_back(b)` yields
the same element sequence (forward traversal) and the same count as
`push_back(b)` then `push_front(a)`: pushes at opposite ends commute
observably. -/
theorem C10_pushes_commute (l : DLL) (a b : Int) (fuel : Nat) (hI : DLL.Inv l)
    (hfuel : l.size_ + 2 ≤ fuel) :
    (push_back (push_front l a) b).size_ = (push_front (push_back l b) a).size_ ∧
    traverseFwd (push_back (push_front l a) b).heap fuel
        (push_back (push_front l a) b).head =
      traverseFwd (push_front (push_back l b) a).heap fuel
        (push_front (push_back l b) a).head := by
  obtain ⟨as, hIW⟩ := hI
  refine ⟨rfl, ?_⟩
  obtain ⟨hIW1, hv1⟩ := push_front_invWith l a as hIW
  obtain ⟨hIW2, hv2⟩ := push_back_invWith (push_front l a) b (l.fresh :: as) hIW1
  obtain ⟨hIW3, hv3⟩ := push_back_invWith l b as hIW
  obtain ⟨hIW4, hv4⟩ := push_front_invWith (push_back l b) a (as ++ [l.fresh]) hIW3
  have hs2 : (push_back (push_front l a) b).size_ ≤ fuel := by
    rw [push_back_size, push_front_size]
    omega
  have hs4 : (push_front (push_back l b) a).size_ ≤ fuel := by
    rw [push_front_size, push_back_size]
    omega
  rw [invWith_traverseFwd _ _ hIW2 fuel hs2, invWith_traverseFwd _ _ hIW4 fuel hs4,
    hv2, hv1, hv4, hv3]
  simp

theorem C10_pushes_commute_witness :
    (push_back (push_front emptyDLL 1) 2).size_ =
      (push_front (push_back emptyDLL 2) 1).size_ ∧
    traverseFwd (push_back (push_front emptyDLL 1) 2).heap 2
        (push_back (push_front emptyDLL 1) 2).head =
      traverseFwd (push_front (push_back emptyDLL 2) 1).heap 2
        (push_front (push_back emptyDLL 2) 1).head :=
  C10_pushes_commute emptyDLL 1 2 2 ⟨[], invWith_empty⟩ (by decide)

/-! ### Sequences of operations -/

/-- A call to one of the four mutating operations. -/
inductive Op where
  | pushF : Int → Op
  | pushB : Int → Op
  | popF : Op
  | popB : Op

/-- Execute one call; a pop that throws leaves the object unchanged. -/
def applyOp (l : DLL) : Op → DLL
  | .pushF v => push_front l v
  | .pushB v => push_back l v
  | .popF => popState l (pop_front l)
  | .popB => popState l (pop_back l)

/-- Run a call sequence. -/
def run (l : DLL) : List Op → DLL
  | [] => l
  | op :: ops => run (applyOp l op) ops

/-- The number of push calls in a sequence. -/
def countPush : List Op → Nat
  | [] => 0
  | .pushF _ :: ops => countPush ops + 1
  | .pushB _ :: ops => countPush ops + 1
  | .popF :: ops => countPush ops
  | .popB :: ops => countPush ops

/-- The number of pop calls that succeed (return a value rather than
throwing) when the sequence is run from `l`. -/
def countPopOk (l : DLL) : List Op → Nat
  | [] => 0
  | .pushF v :: ops => countPopOk (push_front l v) ops
  | .pushB v :: ops => countPopOk (push_back l v) ops
  | .popF :: ops =>
    match pop_front l with
    | .ok _ l2 => countPopOk l2 ops + 1
    | _ => countPopOk l ops
  | .popB :: ops =>
    match pop_back l with
    | .ok _ l2 => countPopOk l2 ops + 1
    | _ => countPopOk l ops

theorem run_size_aux : ∀ (ops : List Op) (l : DLL), DLL.Inv l →
    DLL.Inv (run l ops) ∧
    countPopOk l ops ≤ l.size_ + countPush ops ∧
    (run l ops).size_ + countPopOk l ops = l.size_ + countPush ops := by
  intro ops
  induction ops with
  | nil =>
    intro l hI
    exact ⟨hI, by simp [countPopOk, countPush], by simp [run, countPopOk, countPush]⟩
  | cons op ops ih =>
    intro l hI
    cases op with
    | pushF v =>
      obtain ⟨hInv, hle, heq⟩ := ih (push_front l v) (push_front_inv l v hI)
      have hps : (push_front l v).size_ = l.size_ + 1 := push_front_size l v
      refine ⟨by simpa [run, applyOp] using hInv, ?_, ?_⟩
      · simp only [countPopOk, countPush]
        omega
      · simp only [run, applyOp, countPopOk, countPush]
        omega
    | pushB v =>
      obtain ⟨hInv, hle, heq⟩ := ih (push_back l v) (push_back_inv l v hI)
      have hps : (push_back l v).size_ = l.size_ + 1 := push_back_size l v
      refine ⟨by simpa [run, applyOp] using hInv, ?_, ?_⟩
      · simp only [countPopOk, countPush]
        omega
      · simp only [run, applyOp, countPopOk, countPush]
        omega
    | popF =>
      by_cases hs : l.size_ = 0
      · have hu : pop_front l = .underflow := pop_front_underflow l hs
        obtain ⟨hInv, hle, heq⟩ := ih l hI
        refine ⟨by simpa [run, applyOp, hu, popState] using hInv, ?_, ?_⟩
        · simp only [countPopOk, countPush, hu]
          omega
        · simp only [run, applyOp, countPopOk, countPush, hu, popState]
          omega
      · obtain ⟨v, l2, hpe, hI2, hsz⟩ := pop_front_ok l hI hs
        obtain ⟨hInv, hle, heq⟩ := ih l2 hI2
        refine ⟨by simpa [run, applyOp, hpe, popState] using hInv, ?_, ?_⟩
        · simp only [countPopOk, countPush, hpe]
          omega
        · simp only [run, applyOp, countPopOk, countPush, hpe, popState]
          omega
    | popB =>
      by_cases hs : l.size_ = 0
      · have hu : pop_back l = .underflow := pop_back_underflow l hs
        obtain ⟨hInv, hle, heq⟩ := ih l hI
        refine ⟨by simpa [run, applyOp, hu, popState] using hInv, ?_, ?_⟩
        · simp only [countPopOk, countPush, hu]
          omega
        · simp only [run, applyOp, countPopOk, countPush, hu, popState]
          omega
      · obtain ⟨v, l2, hpe, hI2, hsz⟩ := pop_back_ok l hI hs
        obtain ⟨hInv, hle, heq⟩ := ih l2 hI2
        refine ⟨by simpa [run, applyOp, hpe, popState] using hInv, ?_, ?_⟩
        · simp only [countPopOk, countPush, hpe]
          omega
        · simp only [run, applyOp, countPopOk, countPush, hpe, popState]
          omega

/-- C4: running any sequence of mixed pushes and pops from the empty list,
`size()` equals the number of pushes minus the number of successful
(non-throwing) pops, the successful pops never exceed the pushes, and each
push adds exactly 1 to `size()` and never fails. -/
theorem C4_size_counts (ops : List Op) :
    countPopOk emptyDLL ops ≤ countPush ops ∧
    (run emptyDLL ops).size = countPush ops - countPopOk emptyDLL ops ∧
    (∀ l v, (push_front l v).size = l.size + 1 ∧ (push_back l v).size = l.size + 1) := by
  obtain ⟨-, hle, heq⟩ := run_size_aux ops emptyDLL ⟨[], invWith_empty⟩
  have h0 : emptyDLL.size_ = 0 := rfl
  refine ⟨by omega, ?_, ?_⟩
  · rw [DLL.size]
    omega
  · intro l v
    simp [DLL.size, push_front_size, push_back_size]

/-- A push call together with the end it targets. -/
inductive PushOp where
  | front : Int → PushOp
  | back : Int → PushOp

/-- The push call itself. -/
def pushOpToOp : PushOp → Op
  | .front v => .pushF v
  | .back v => .pushB v

/-- The pop from the same end the push targeted. -/
def pushOpToPop : PushOp → Op
  | .front _ => .popF
  | .back _ => .popB

/-- Run a call sequence, failing (`none`) as soon as a pop throws. -/
def runChecked (l : DLL) : List Op → Option DLL
  | [] => some l
  | .pushF v :: ops => runChecked (push_front l v) ops
  | .pushB v :: ops => runChecked (push_back l v) ops
  | .popF :: ops =>
    match pop_front l with
    | .ok _ l2 => runChecked l2 ops
    | _ => none
  | .popB :: ops =>
    match pop_back l with
    | .ok _ l2 => runChecked l2 ops
    | _ => none

/-- Whether a call is a pop. -/
def isPop : Op → Bool
  | .popF => true
  | .popB => true
  | _ => false

theorem runChecked_append (xs : List Op) : ∀ (ys : List Op) (l : DLL),
    runChecked l (xs ++ ys) = (runChecked l xs).bind (fun l2 => runChecked l2 ys) := by
  induction xs with
  | nil => intro ys l; simp [runChecked]
  | cons op xs ih =>
    intro ys l
    cases op with
    | pushF v => simp [runChecked, ih]
    | pushB v => simp [runChecked, ih]
    | popF =>
      rcases hpe : pop_front l with _ | _ | ⟨v, l2⟩ <;> simp [runChecked, hpe, ih]
    | popB =>
      rcases hpe : pop_back l with _ | _ | ⟨v, l2⟩ <;> simp [runChecked, hpe, ih]

theorem runChecked_pushes : ∀ (ps : List PushOp) (l : DLL), DLL.Inv l →
    ∃ l2, runChecked l (ps.map pushOpToOp) = some l2 ∧ DLL.Inv l2 ∧
      l2.size_ = l.size_ + ps.length := by
  intro ps
  induction ps with
  | nil =>
    intro l hI
    exact ⟨l, by simp [runChecked], hI, by simp⟩
  | cons p ps ih =>
    intro l hI
    cases p with
    | front v =>
      obtain ⟨l2, hrun, hI2, hsz⟩ := ih (push_front l v) (push_front_inv l v hI)
      refine ⟨l2, by simpa [pushOpToOp, runChecked] using hrun, hI2, ?_⟩
      rw [hsz, push_front_size]
      simp
      omega
    | back v =>
      obtain ⟨l2, hrun, hI2, hsz⟩ := ih (push_back l v) (push_back_inv l v hI)
      refine ⟨l2, by simpa [pushOpToOp, runChecked] using hrun, hI2, ?_⟩
      rw [hsz, push_back_size]
      simp
      omega

theorem runChecked_pops : ∀ (qs : List Op) (l : DLL), (∀ q ∈ qs, isPop q = true) →
    DLL.Inv l → qs.length ≤ l.size_ →
    ∃ l2, runChecked l qs = some l2 ∧ DLL.Inv l2 ∧
      l2.size_ = l.size_ - qs.length := by
  intro qs
  induction qs with
  | nil =>
    intro l _ hI _
    exact ⟨l, by simp [runChecked], hI, by simp⟩
  | cons q qs ih =>
    intro l hq hI hlen
    have hs : l.size_ ≠ 0 := by simp at hlen; omega
    cases q with
    | pushF v =>
      have := hq (Op.pushF v) (by simp)
      simp [isPop] at this
    | pushB v =>
      have := hq (Op.pushB v) (by simp)
      simp [isPop] at this
    | popF =>
      obtain ⟨v, l2, hpe, hI2, hsz⟩ := pop_front_ok l hI hs
      obtain ⟨l3, hrun, hI3, hsz3⟩ :=
        ih l2 (fun x hx => hq x (by simp [hx])) hI2 (by simp at hlen; omega)
      refine ⟨l3, by simp [runChecked, hpe, hrun], hI3, ?_⟩
      simp at hlen ⊢
      omega
    | popB =>
      obtain ⟨v, l2, hpe, hI2, hsz⟩ := pop_back_ok l hI hs
      obtain ⟨l3, hrun, hI3, hsz3⟩ :=
        ih l2 (fun x hx => hq x (by simp [hx])) hI2 (by simp at hlen; omega)
      refine ⟨l3, by simp [runChecked, hpe, hrun], hI3, ?_⟩
      simp at hlen ⊢
      omega

theorem pushOpToPop_isPop (ps : List PushOp) :
    ∀ q ∈ ps.reverse.map pushOpToPop, isPop q = true := by
  intro q hq
  simp [List.mem_map] at hq
  obtain ⟨p, -, rfl⟩ := hq
  cases p <;> simp [pushOpToPop, isPop]

/-- C6: from the empty list, any sequence of pushes followed by one pop
per push, each from the end its element was pushed at, in reverse push
order, succeeds at every step (no underflow) and drains the list back to
`size() == 0`. -/
theorem C6_round_trip (ps : List PushOp) :
    ∃ l2, runChecked emptyDLL
        (ps.map pushOpToOp ++ ps.reverse.map pushOpToPop) = some l2 ∧
      l2.size = 0 := by
  have h0 : emptyDLL.size_ = 0 := rfl
  obtain ⟨l1, hrun1, hI1, hsz1⟩ := runChecked_pushes ps emptyDLL ⟨[], invWith_empty⟩
  have hlen : (ps.reverse.map pushOpToPop).length ≤ l1.size_ := by
    simp
    omega
  obtain ⟨l2, hrun2, hI2, hsz2⟩ :=
    runChecked_pops (ps.reverse.map pushOpToPop) l1 (pushOpToPop_isPop ps) hI1 hlen
  refine ⟨l2, ?_, ?_⟩
  · rw [runChecked_append, hrun1]
    simpa using hrun2
  · rw [DLL.size, hsz2]
    simp
    omega
